import Mathlib

/-!
Shallow embedding of the chessOpenings analysis core (src/main.py).

The program drives an external UCI engine and the Lichess masters database.
We embed the three core functions — `evaluate_move_criticality`,
`get_variation_candidates` and `analyze_variation` — over explicit oracles:

* A chess position is modelled as the stack of moves pushed onto an implicit
  fixed start position (`Board := List Move`); `board.push(m)` is `b ++ [m]`
  and `board.pop()` is `b.dropLast`.  This makes the push/pop discipline of
  the Python code (which mutates a `chess.Board` in place) explicit state
  threading, so frame properties are real statements.
* `chess.Move` equality is structural over (from_square, to_square,
  promotion, drop); we mirror that with a structure deriving `DecidableEq`.
* `engine.analyse(board, Limit(time=t))` is an oracle
  `analyse : Board → Nat → Option EngineInfo`: `none` models the call raising
  (timeout / crash / protocol fault), `some info` a successful call, with
  `info.score` the value of `info["score"].white().score(mate_score=10000)`
  (a White-perspective centipawn integer, mate mapped to a capped sentinel by
  the library) and `info.pv` the principal variation (`[]` models both an
  absent `"pv"` key and an empty list, which the source treats alike).
* The Lichess response and the multipv engine response are single calls per
  invocation, so they are passed as response values; `board.parse_san` is an
  oracle `parse : String → Option Move` (`none` models the raised exception
  on an illegal or malformed SAN).

Side effects that the source performs per ply (SVG rendering, the spinner,
printing) do not influence any returned data and are not modelled; the
textual plan explanation is out of the verified core's scope.
-/

/-- Structural chess move, mirroring `chess.Move`: equality is by
from-square, to-square, promotion piece and drop piece, never textual. -/
structure Move where
  from_square : Nat
  to_square : Nat
  promotion : Option Nat
  piece_drop : Option Nat
deriving DecidableEq, Repr

/-- A chess position, represented by the moves pushed onto the implicit
start position.  `push` appends, `pop` drops the last move. -/
abbrev Board := List Move

/-- Result of one successful `engine.analyse` call: the White-perspective
centipawn score (`info["score"].white().score(mate_score=10000)`) and the
principal variation (`info.get("pv")`, empty when absent). -/
structure EngineInfo where
  score : Int
  pv : List Move
deriving DecidableEq, Repr

/-- One entry of the Lichess masters response's `"moves"` list: the SAN
string (empty models a missing/falsy `"san"` key) and the outcome counts
(`.get("white", 0)` etc., so missing counts are 0). -/
structure LichessMove where
  san : String
  white : Nat
  draws : Nat
  black : Nat
deriving DecidableEq, Repr

/-- The loop `for alt in board.legal_moves: push; analyse-or-0; record; pop`
of `evaluate_move_criticality`, with the board state threaded explicitly.
Returns the recorded `(alt, alt_score)` list and the final board state. -/
def altScan (analyse : Board → Nat → Option EngineInfo) (t : Nat) :
    List Move → Board → List (Move × Int) × Board
  | [], b => ([], b)
  | alt :: rest, b =>
    let b1 := b ++ [alt]
    let s : Int := match analyse b1 t with
      | none => 0
      | some info => info.score
    let b2 := b1.dropLast
    let r := altScan analyse t rest b2
    ((alt, s) :: r.1, r.2)

/-- Embedding of `evaluate_move_criticality(board, move, engine, threshold, analysis_time)`
from src/main.py, lines 89–133.  `analyse` stands for the engine; a raised
analysis call (`none`) is replaced by `PovScore(Cp(0), WHITE)`, i.e. score 0.
Returns the `(is_critical, score_diff)` verdict together with the final
board state (the Python function mutates `board` by push/pop pairs). -/
def evaluate_move_criticality (analyse : Board → Nat → Option EngineInfo)
    (legal : Board → List Move) (board : Board) (move : Move)
    (threshold : Int) (analysis_time : Nat) : (Bool × Int) × Board :=
  let b1 := board ++ [move]
  let best_score : Int := match analyse b1 analysis_time with
    | none => 0
    | some info => info.score
  let b2 := b1.dropLast
  let scan := altScan analyse analysis_time (legal b2) b2
  let alternative_scores := scan.1.filter (fun p => p.1 != move)
  match alternative_scores with
  | [] => ((false, 0), scan.2)
  | p :: ps =>
    let best_alternative := (ps.map Prod.snd).foldl max p.2
    let score_diff := best_score - best_alternative
    ((decide (score_diff ≥ threshold), score_diff), scan.2)

/-- Total games of a Lichess move entry:
`x.get("white", 0) + x.get("draws", 0) + x.get("black", 0)`. -/
def totalGames (x : LichessMove) : Nat :=
  x.white + x.draws + x.black

/-- One step of a stable descending insertion sort: `x` (earlier in the
original order than everything in the already-sorted list) is placed before
the first element whose key does not exceed `x`'s, so ties keep their
original relative order. -/
def insertDesc (x : LichessMove) : List LichessMove → List LichessMove
  | [] => [x]
  | y :: ys =>
    if totalGames y ≤ totalGames x then x :: y :: ys else y :: insertDesc x ys

/-- Embedding of `sorted(moves, key=λx. white+draws+black, reverse=True)`: Python's sort
is stable, and `reverse=True` reverses the key comparison while keeping
ties in original order.  A stable sort under the total preorder
`totalGames b ≤ totalGames a` is extensionally unique, so this structurally
recursive stable insertion sort computes exactly Python's result. -/
def sortDescByGames : List LichessMove → List LichessMove
  | [] => []
  | a :: as_ => insertDesc a (sortDescByGames as_)

/-- Step 1 of `get_variation_candidates` (src/main.py lines 167–184): take
the top `top_moves_count` database moves by total games and parse each SAN,
silently dropping falsy SANs and parse failures. -/
def dbCandidates (dbData : Option (List LichessMove))
    (parse : String → Option Move) (top_moves_count : Nat) : List Move :=
  match dbData with
  | none => []
  | some moves =>
    let sorted_moves := sortDescByGames moves
    (sorted_moves.take top_moves_count).foldl
      (fun acc move_data =>
        if move_data.san = "" then acc
        else
          match parse move_data.san with
          | some mv => acc ++ [mv]
          | none => acc)
      []

/-- Embedding of `get_variation_candidates(board, engine, top_moves_count, analysis_time)`
from src/main.py, lines 160–195.  `dbData` is the Lichess response (`none`
models a failed query or a response without a `"moves"` key), `parse` is
`board.parse_san`, and `engineLines` is the multipv `engine.analyse` result
(`none` models the raised exception; each element is one line's `pv`, empty
modelling an absent `"pv"` key). -/
def get_variation_candidates (dbData : Option (List LichessMove))
    (parse : String → Option Move) (engineLines : Option (List (List Move)))
    (top_moves_count : Nat) : List Move :=
  let candidate_moves := dbCandidates dbData parse top_moves_count
  let candidate_moves :=
    if candidate_moves.length < top_moves_count then
      match engineLines with
      | none => candidate_moves
      | some infos =>
        infos.foldl
          (fun acc pv =>
            match pv with
            | [] => acc
            | m0 :: _ => if m0 ∈ acc then acc else acc ++ [m0])
          candidate_moves
    else candidate_moves
  candidate_moves.take top_moves_count

/-- The record returned by `analyze_variation`: the SAN move list, the
`(move_san, is_critical, score_diff)` tuples, the number of critical moves
and the board position reached.  (The `"explanation"` field is produced by
the out-of-core textual heuristic and carries no verified content.) -/
structure VariationRecord where
  moves : List String
  critical_info : List (String × Bool × Int)
  critical_count : Nat
  final_board : Board
deriving DecidableEq, Repr

/-- The principal-variation loop `for i in range(1, variation_depth)` of
`analyze_variation` (src/main.py lines 281–299), with the board threaded
explicitly.  A raised `engine.analyse` (`none`) and a missing/empty `pv`
both break the loop; otherwise the first pv move is evaluated for
criticality, recorded (SAN via the `san` oracle) and pushed.  Returns the
recorded entries and the final board. -/
def walkLoop (analyse : Board → Nat → Option EngineInfo)
    (legal : Board → List Move) (san : Board → Move → String)
    (threshold : Int) (analysis_time : Nat) :
    Nat → Board → List (String × Bool × Int) × Board
  | 0, b => ([], b)
  | fuel + 1, b =>
    match analyse b analysis_time with
    | none => ([], b)
    | some info =>
      match info.pv with
      | [] => ([], b)
      | next_move :: _ =>
        let r := evaluate_move_criticality analyse legal b next_move
          threshold analysis_time
        let next_move_san := san r.2 next_move
        let rest := walkLoop analyse legal san threshold analysis_time fuel
          (r.2 ++ [next_move])
        ((next_move_san, r.1.1, r.1.2) :: rest.1, rest.2)

/-- Embedding of `analyze_variation(start_board, candidate_move, engine, variation_depth,
analysis_time, threshold)` from src/main.py, lines 247–312.  The walk
operates on `board = start_board.copy()` (value semantics here).  The
candidate move is evaluated for criticality, recorded, and pushed; then the
engine's principal variation is followed for up to `variation_depth - 1`
further plies.  `san` is `board.san` with its `str(move)` fallback folded
in (both produce a string; neither branch can abort the walk). -/
def analyze_variation (analyse : Board → Nat → Option EngineInfo)
    (legal : Board → List Move) (san : Board → Move → String)
    (start_board : Board) (candidate_move : Move) (variation_depth : Nat)
    (threshold : Int) (analysis_time : Nat) : VariationRecord :=
  let r0 := evaluate_move_criticality analyse legal start_board
    candidate_move threshold analysis_time
  let candidate_san := san r0.2 candidate_move
  let b1 := r0.2 ++ [candidate_move]
  let rest := walkLoop analyse legal san threshold analysis_time
    (variation_depth - 1) b1
  let move_info_list := (candidate_san, r0.1.1, r0.1.2) :: rest.1
  { moves := move_info_list.map (fun e => e.1)
    critical_info := move_info_list
    critical_count := move_info_list.countP (fun e => e.2.1)
    final_board := rest.2 }

/-! ## Specification-side definitions

These follow the spec's words, for comparison with the source embeddings. -/

/-- The White-perspective score the evaluator obtains for playing `m` on
`b`: the engine's answer, degraded to the neutral score 0 when the call
fails. -/
def scoreOf (analyse : Board → Nat → Option EngineInfo) (t : Nat)
    (b : Board) (m : Move) : Int :=
  match analyse (b ++ [m]) t with
  | none => 0
  | some info => info.score

/-- Maximum of a list of scores in Python's `max` style (first element is
the seed); 0 on the empty list, where the source never takes a maximum. -/
def listMaxD : List Int → Int
  | [] => 0
  | x :: xs => xs.foldl max x

/-- Spec §4.1 step 2: append each engine move to the merged sequence only
when not already present, by structural equality. -/
def mergeNew (acc : List Move) : List Move → List Move
  | [] => acc
  | m :: ms => if m ∈ acc then mergeNew acc ms else mergeNew (acc ++ [m]) ms

/-- Definition of `select_candidates` as the spec §4.1 words it: sort the database moves
descending by total recorded outcomes, take up to `desired_count`,
convert each SAN dropping parse failures; if fewer than `desired_count`
result, take each engine line's first move and append it only when not
already present; truncate the merged sequence to `desired_count`. -/
def select_candidates_spec (dbData : Option (List LichessMove))
    (parse : String → Option Move) (engineLines : Option (List (List Move)))
    (desired_count : Nat) : List Move :=
  let db : List Move :=
    match dbData with
    | none => []
    | some l =>
      ((sortDescByGames l).take desired_count).filterMap
        (fun e => if e.san = "" then none else parse e.san)
  let merged :=
    if db.length < desired_count then
      mergeNew db ((engineLines.getD []).filterMap List.head?)
    else db
  merged.take desired_count

/-- The moves a walk pushes after the candidate move: the first
principal-variation move at each position, until the fuel runs out, an
analysis call fails, or the principal variation is empty. -/
def walkMoves (analyse : Board → Nat → Option EngineInfo) (t : Nat) :
    Nat → Board → List Move
  | 0, _ => []
  | fuel + 1, b =>
    match analyse b t with
    | none => []
    | some info =>
      match info.pv with
      | [] => []
      | next_move :: _ => next_move :: walkMoves analyse t fuel (b ++ [next_move])

/-- The SAN names of a move sequence, each rendered against the position
on which the walk plays it. -/
def sanTrace (san : Board → Move → String) : Board → List Move → List String
  | _, [] => []
  | b, m :: ms => san b m :: sanTrace san (b ++ [m]) ms

/-! ## Basic lemmas about the evaluator -/

theorem altScan_snd (analyse : Board → Nat → Option EngineInfo) (t : Nat) :
    ∀ (l : List Move) (b : Board), (altScan analyse t l b).2 = b
  | [], _ => rfl
  | alt :: rest, b => by
    simp only [altScan, List.dropLast_concat]
    exact altScan_snd analyse t rest b

theorem altScan_fst (analyse : Board → Nat → Option EngineInfo) (t : Nat) :
    ∀ (l : List Move) (b : Board),
      (altScan analyse t l b).1 = l.map (fun alt => (alt, scoreOf analyse t b alt))
  | [], _ => rfl
  | alt :: rest, b => by
    simp only [altScan, List.dropLast_concat, List.map_cons]
    exact congrArg _ (altScan_fst analyse t rest b)

theorem evaluate_move_criticality_snd (analyse : Board → Nat → Option EngineInfo)
    (legal : Board → List Move) (p : Board) (m : Move) (T : Int) (t : Nat) :
    (evaluate_move_criticality analyse legal p m T t).2 = p := by
  simp only [evaluate_move_criticality, List.dropLast_concat]
  cases h : (altScan analyse t (legal p) p).1.filter (fun pr => pr.1 != m) with
  | nil => simpa using altScan_snd analyse t (legal p) p
  | cons q qs => simpa using altScan_snd analyse t (legal p) p

theorem filter_ne_fst_map (l : List Move) (f : Move → Move × Int) (m : Move)
    (hf : ∀ x, (f x).1 = x) :
    (l.map f).filter (fun pr => pr.1 != m) = (l.filter (fun x => x != m)).map f := by
  induction l with
  | nil => rfl
  | cons a as_ ih =>
    by_cases ha : a = m
    · subst ha
      simp [List.filter_cons, hf, ih]
    · simp [List.filter_cons, hf, ha, ih]

/-- The verdict of `evaluate_move_criticality`, characterised by the filtered
legal-move list and the per-move scores. -/
theorem evaluate_move_criticality_fst (analyse : Board → Nat → Option EngineInfo)
    (legal : Board → List Move) (p : Board) (m : Move) (T : Int) (t : Nat) :
    (evaluate_move_criticality analyse legal p m T t).1
      = match (legal p).filter (fun x => x != m) with
        | [] => (false, 0)
        | a :: as_ =>
          ((decide (scoreOf analyse t p m
              - ((as_.map (scoreOf analyse t p)).foldl max (scoreOf analyse t p a)) ≥ T)),
           scoreOf analyse t p m
              - ((as_.map (scoreOf analyse t p)).foldl max (scoreOf analyse t p a))) := by
  simp only [evaluate_move_criticality, List.dropLast_concat,
    altScan_fst analyse t (legal p) p,
    filter_ne_fst_map (legal p) (fun alt => (alt, scoreOf analyse t p alt)) m
      (fun _ => rfl)]
  cases h : (legal p).filter (fun x => x != m) with
  | nil => simp [scoreOf]
  | cons a as_ =>
    simp only [List.map_cons, List.map_map]
    rfl

theorem seed_le_foldl_max : ∀ (xs : List Int) (x : Int), x ≤ xs.foldl max x
  | [], x => le_refl x
  | y :: ys, x => le_trans (le_max_left x y) (seed_le_foldl_max ys (max x y))

theorem le_foldl_max : ∀ (xs : List Int) (x a : Int),
    a = x ∨ a ∈ xs → a ≤ xs.foldl max x
  | [], x, a, h => by
    rcases h with h | h
    · exact h ▸ le_refl a
    · cases h
  | y :: ys, x, a, h => by
    rw [List.foldl_cons]
    rcases h with rfl | h
    · exact le_trans (le_max_left a y) (seed_le_foldl_max ys (max a y))
    · rcases List.mem_cons.mp h with rfl | h
      · exact le_trans (le_max_right x a) (seed_le_foldl_max ys (max x a))
      · exact le_foldl_max ys (max x y) a (Or.inr h)

theorem foldl_max_mem : ∀ (xs : List Int) (x : Int),
    xs.foldl max x = x ∨ xs.foldl max x ∈ xs
  | [], _ => Or.inl rfl
  | y :: ys, x => by
    rw [List.foldl_cons]
    rcases foldl_max_mem ys (max x y) with h | h
    · rcases max_choice x y with hc | hc
      · exact Or.inl (h.trans hc)
      · exact Or.inr (List.mem_cons.mpr (Or.inl (h.trans hc)))
    · exact Or.inr (List.mem_cons.mpr (Or.inr h))

/-- Replacing the engine by one that never fails and answers the neutral
score 0 exactly where the original call failed leaves `altScan` unchanged. -/
theorem altScan_neutral (analyse : Board → Nat → Option EngineInfo) (t : Nat) :
    ∀ (l : List Move) (b : Board),
      altScan
        (fun b1 t1 => some
          ⟨(match analyse b1 t1 with | none => 0 | some i => i.score), []⟩)
        t l b
      = altScan analyse t l b
  | [], _ => rfl
  | alt :: rest, b => by
    simp only [altScan]
    rw [altScan_neutral analyse t rest]

/-! ## Concrete demonstration data (used by witnesses and counterexamples) -/

def mvA : Move := ⟨8, 16, none, none⟩

def mvB : Move := ⟨10, 18, none, none⟩

def mvC : Move := ⟨12, 20, none, none⟩

/-- A deterministic engine stub: score grows with the number of pushed
moves, principal variation always suggests `mvB`. -/
def demoAnalyse : Board → Nat → Option EngineInfo :=
  fun b _ => some ⟨(b.length : Int) * 10, [mvB]⟩

/-- A position oracle with two legal moves. -/
def demoLegal : Board → List Move := fun _ => [mvA, mvB]

/-- A position oracle in which the candidate is the only legal move. -/
def soloLegal : Board → List Move := fun _ => [mvA]

/-! ## Claim theorems: the criticality evaluator -/

/-- C1: when the position has at least one legal move other than the (legal)
candidate, `evaluate_move_criticality` returns as margin the chosen move's
score minus the maximum score over all legal moves other than the candidate
(the candidate is excluded from the alternatives by structural equality),
and `is_critical` holds exactly when the margin reaches the threshold. -/
theorem evaluate_margin_vs_best_alternative
    (analyse : Board → Nat → Option EngineInfo) (legal : Board → List Move)
    (p : Board) (m : Move) (T : Int) (t : Nat)
    (hm : m ∈ legal p)
    (halt : ∃ mAlt, mAlt ∈ legal p ∧ mAlt ≠ m) :
    (evaluate_move_criticality analyse legal p m T t).1.2
        = scoreOf analyse t p m
            - listMaxD (((legal p).filter (fun x => x != m)).map (scoreOf analyse t p))
      ∧ ((evaluate_move_criticality analyse legal p m T t).1.1 = true
            ↔ T ≤ (evaluate_move_criticality analyse legal p m T t).1.2) := by
  have hE := evaluate_move_criticality_fst analyse legal p m T t
  cases hfl : (legal p).filter (fun x => x != m) with
  | nil =>
    obtain ⟨a, ha, ham⟩ := halt
    have : a ∈ (legal p).filter (fun x => x != m) := by
      simp [List.mem_filter, ha, ham]
    rw [hfl] at this
    cases this
  | cons a as_ =>
    rw [hfl] at hE
    refine ⟨?_, ?_⟩
    · rw [hE]
      rfl
    · rw [hE]
      simp [decide_eq_true_iff, ge_iff_le]

/-- C1 witness: a concrete two-legal-move position with a deterministic
engine stub. -/
theorem evaluate_margin_vs_best_alternative_witness :
    mvA ∈ demoLegal [] ∧
    ((evaluate_move_criticality demoAnalyse demoLegal [] mvA 50 1).1.2
        = scoreOf demoAnalyse 1 [] mvA
            - listMaxD (((demoLegal []).filter (fun x => x != mvA)).map
                (scoreOf demoAnalyse 1 []))
      ∧ ((evaluate_move_criticality demoAnalyse demoLegal [] mvA 50 1).1.1 = true
            ↔ 50 ≤ (evaluate_move_criticality demoAnalyse demoLegal [] mvA 50 1).1.2)) :=
  ⟨by decide,
   evaluate_margin_vs_best_alternative demoAnalyse demoLegal [] mvA 50 1
     (by decide) ⟨mvB, by decide⟩⟩

/-- C2 counterexample: when the candidate has no legal alternative, the code
returns `is_critical = false` although "every legal alternative is worse by
at least the threshold" holds vacuously, so the unconditional biconditional
of the claim is false. -/
theorem evaluate_critical_iff_counterexample :
    ¬ (((evaluate_move_criticality demoAnalyse soloLegal [] mvA 50 1).1.1 = true)
        ↔ ∀ mAlt ∈ soloLegal ([] : Board), mAlt ≠ mvA →
            50 ≤ scoreOf demoAnalyse 1 [] mvA - scoreOf demoAnalyse 1 [] mAlt) := by
  decide

/-- C2 (amended): whenever the position has at least one legal alternative
to the candidate, `is_critical` is true precisely when every legal
alternative scores at least `threshold` centipawns below the chosen move on
the raw perspective-fixed score difference (which side is to move never
enters the comparison — the score oracle is already perspective-fixed). -/
theorem evaluate_critical_iff_all_alternatives_worse
    (analyse : Board → Nat → Option EngineInfo) (legal : Board → List Move)
    (p : Board) (m : Move) (T : Int) (t : Nat)
    (halt : ∃ mAlt, mAlt ∈ legal p ∧ mAlt ≠ m) :
    ((evaluate_move_criticality analyse legal p m T t).1.1 = true
      ↔ ∀ mAlt ∈ legal p, mAlt ≠ m →
          T ≤ scoreOf analyse t p m - scoreOf analyse t p mAlt) := by
  have hE := evaluate_move_criticality_fst analyse legal p m T t
  cases hfl : (legal p).filter (fun x => x != m) with
  | nil =>
    obtain ⟨a, ha, ham⟩ := halt
    have : a ∈ (legal p).filter (fun x => x != m) := by
      simp [List.mem_filter, ha, ham]
    rw [hfl] at this
    cases this
  | cons a as_ =>
    rw [hfl] at hE
    rw [hE]
    simp only [decide_eq_true_iff, ge_iff_le]
    constructor
    · intro hT mAlt hmem hne
      have hmemf : mAlt ∈ (legal p).filter (fun x => x != m) := by
        simp [List.mem_filter, hmem, hne]
      rw [hfl] at hmemf
      have hle : scoreOf analyse t p mAlt
          ≤ (as_.map (scoreOf analyse t p)).foldl max (scoreOf analyse t p a) := by
        rcases List.mem_cons.mp hmemf with rfl | hmm
        · exact le_foldl_max _ _ _ (Or.inl rfl)
        · exact le_foldl_max _ _ _ (Or.inr (List.mem_map_of_mem _ hmm))
      linarith
    · intro hall
      have hworse : ∀ x ∈ (legal p).filter (fun x => x != m),
          T ≤ scoreOf analyse t p m - scoreOf analyse t p x := by
        intro x hx
        have hmem := List.mem_filter.mp hx
        exact hall x hmem.1 (by simpa using hmem.2)
      rcases foldl_max_mem (as_.map (scoreOf analyse t p)) (scoreOf analyse t p a)
        with hc | hc
      · have ha : a ∈ (legal p).filter (fun x => x != m) := by
          rw [hfl]; exact List.mem_cons_self a as_
        have := hworse a ha
        linarith [hc]
      · obtain ⟨x, hx, hxe⟩ := List.mem_map.mp hc
        have hxf : x ∈ (legal p).filter (fun x => x != m) := by
          rw [hfl]; exact List.mem_cons_of_mem a hx
        have := hworse x hxf
        linarith [hxe]

/-- C2 witness: the amended biconditional at a concrete two-legal-move
position. -/
theorem evaluate_critical_iff_all_alternatives_worse_witness :
    ((evaluate_move_criticality demoAnalyse demoLegal [] mvA 50 1).1.1 = true
      ↔ ∀ mAlt ∈ demoLegal ([] : Board), mAlt ≠ mvA →
          50 ≤ scoreOf demoAnalyse 1 [] mvA - scoreOf demoAnalyse 1 [] mAlt) :=
  evaluate_critical_iff_all_alternatives_worse demoAnalyse demoLegal [] mvA 50 1
    ⟨mvB, by decide⟩

/-- C4: the evaluator degrades every failed engine-analysis call (timeout,
crash, protocol fault, modelled by `none`) to the neutral score 0 for that
call only and never aborts: its run against the fallible engine equals its
run against a never-failing engine answering 0 exactly on the failed calls,
so every scoring call yields a usable score and a verdict is always
returned. -/
theorem evaluate_degrades_failures_to_neutral
    (analyse : Board → Nat → Option EngineInfo) (legal : Board → List Move)
    (p : Board) (m : Move) (T : Int) (t : Nat) :
    evaluate_move_criticality analyse legal p m T t
      = evaluate_move_criticality
          (fun b1 t1 => some
            ⟨(match analyse b1 t1 with | none => 0 | some i => i.score), []⟩)
          legal p m T t := by
  simp only [evaluate_move_criticality, altScan_neutral]

/-- C6: when the position has no legal move other than the candidate (in
particular with exactly one legal move), the verdict is `(false, 0)`. -/
theorem evaluate_no_alternative_returns_false_zero
    (analyse : Board → Nat → Option EngineInfo) (legal : Board → List Move)
    (p : Board) (m : Move) (T : Int) (t : Nat)
    (h : ∀ mAlt ∈ legal p, mAlt = m) :
    (evaluate_move_criticality analyse legal p m T t).1 = (false, 0) := by
  have hfl : (legal p).filter (fun x => x != m) = [] := by
    rw [List.filter_eq_nil_iff]
    intro a ha
    simp [h a ha]
  rw [evaluate_move_criticality_fst, hfl]

/-- C6 witness: a position whose only legal move is the candidate. -/
theorem evaluate_no_alternative_returns_false_zero_witness :
    (∀ mAlt ∈ soloLegal ([] : Board), mAlt = mvA) ∧
    (evaluate_move_criticality demoAnalyse soloLegal [] mvA 50 1).1 = (false, 0) :=
  ⟨by decide,
   evaluate_no_alternative_returns_false_zero demoAnalyse soloLegal [] mvA 50 1
     (by decide)⟩

/-- C9: every push the evaluator performs is reverted by a matching pop
before it returns, so the position handed back to the caller is exactly the
position passed in. -/
theorem evaluate_restores_position
    (analyse : Board → Nat → Option EngineInfo) (legal : Board → List Move)
    (p : Board) (m : Move) (T : Int) (t : Nat) :
    (evaluate_move_criticality analyse legal p m T t).2 = p :=
  evaluate_move_criticality_snd analyse legal p m T t

/-! ## Lemmas about the candidate selector -/

theorem foldl_parse_eq_filterMap (parse : String → Option Move) :
    ∀ (l : List LichessMove) (acc : List Move),
      l.foldl
        (fun acc move_data =>
          if move_data.san = "" then acc
          else
            match parse move_data.san with
            | some mv => acc ++ [mv]
            | none => acc)
        acc
      = acc ++ l.filterMap (fun e => if e.san = "" then none else parse e.san)
  | [], acc => by simp
  | e :: l, acc => by
    rw [List.foldl_cons, List.filterMap_cons]
    by_cases he : e.san = ""
    · simp only [if_pos he]
      exact foldl_parse_eq_filterMap parse l acc
    · cases hp : parse e.san with
      | none =>
        simp only [if_neg he, hp]
        exact foldl_parse_eq_filterMap parse l acc
      | some mv =>
        simp only [if_neg he, hp]
        rw [foldl_parse_eq_filterMap parse l (acc ++ [mv])]
        simp

theorem foldl_engine_eq_mergeNew :
    ∀ (infos : List (List Move)) (acc : List Move),
      infos.foldl
        (fun acc pv =>
          match pv with
          | [] => acc
          | m0 :: _ => if m0 ∈ acc then acc else acc ++ [m0])
        acc
      = mergeNew acc (infos.filterMap List.head?)
  | [], acc => rfl
  | pv :: infos, acc => by
    cases pv with
    | nil =>
      simp only [List.foldl_cons, List.filterMap_cons, List.head?]
      exact foldl_engine_eq_mergeNew infos acc
    | cons m0 rest =>
      simp only [List.foldl_cons, List.filterMap_cons, List.head?]
      by_cases hmem : m0 ∈ acc
      · simp only [if_pos hmem, mergeNew, if_pos hmem]
        exact foldl_engine_eq_mergeNew infos acc
      · simp only [if_neg hmem, mergeNew, if_neg hmem]
        exact foldl_engine_eq_mergeNew infos (acc ++ [m0])

theorem mergeNew_nodup :
    ∀ (ms : List Move) (acc : List Move), acc.Nodup → (mergeNew acc ms).Nodup
  | [], _, h => h
  | m :: ms, acc, h => by
    by_cases hmem : m ∈ acc
    · simpa [mergeNew, hmem] using mergeNew_nodup ms acc h
    · have hacc : (acc ++ [m]).Nodup := by
        simp [List.nodup_append, h, hmem]
      simpa [mergeNew, hmem] using mergeNew_nodup ms (acc ++ [m]) hacc

/-! ## Claim theorems: the candidate selector -/

/-- A database response holding the same SAN twice, as the
Opening-Popularity Port may return. -/
def dupDb : Option (List LichessMove) := some [⟨"e4", 1, 0, 0⟩, ⟨"e4", 0, 0, 0⟩]

/-- A SAN parser resolving `"e4"` to the structural move `mvA`. -/
def demoParse : String → Option Move := fun s => if s = "e4" then some mvA else none

/-- C3 counterexample: with a database response repeating one SAN, the
selector returns the same structural move twice — it does not hold for
every move list the ports may return that the result has no duplicates. -/
theorem select_candidates_nodup_counterexample :
    get_variation_candidates dupDb demoParse none 3 = [mvA, mvA] ∧
    ¬ (get_variation_candidates dupDb demoParse none 3).Nodup := by
  decide

/-- C3 (amended): for every position and desired count, whatever move lists
the two ports return, the selector returns at most `desired_count` moves —
unconditionally; and whenever the moves parsed from the (sorted, truncated)
database response are pairwise distinct — the engine path always
deduplicates against the accumulated sequence, the database path performs
no duplicate check — the result has no duplicate moves by structural
equality. -/
theorem select_candidates_length_and_nodup (dbData : Option (List LichessMove))
    (parse : String → Option Move) (engineLines : Option (List (List Move)))
    (desired_count : Nat) :
    (get_variation_candidates dbData parse engineLines desired_count).length
        ≤ desired_count
      ∧ ((dbCandidates dbData parse desired_count).Nodup →
          (get_variation_candidates dbData parse engineLines desired_count).Nodup) := by
  constructor
  · simp only [get_variation_candidates]
    rw [List.length_take]
    exact min_le_left _ _
  · intro hdb
    simp only [get_variation_candidates]
    refine List.Nodup.sublist (List.take_sublist _ _) ?_
    by_cases hlen :
        (dbCandidates dbData parse desired_count).length < desired_count
    · simp only [if_pos hlen]
      cases engineLines with
      | none => exact hdb
      | some infos =>
        have hfold : (infos.foldl
            (fun acc pv =>
              match pv with
              | [] => acc
              | m0 :: _ => if m0 ∈ acc then acc else acc ++ [m0])
            (dbCandidates dbData parse desired_count)).Nodup := by
          rw [foldl_engine_eq_mergeNew]
          exact mergeNew_nodup _ _ hdb
        exact hfold
    · simp only [if_neg hlen]
      exact hdb

/-- C3 witness: the unconditional length bound at the duplicated-database
input of the counterexample's shape, and the no-duplicates conclusion at a
duplicate-free database response merged with an engine response. -/
theorem select_candidates_length_and_nodup_witness :
    (get_variation_candidates (some [⟨"e4", 1, 0, 0⟩, ⟨"e4", 0, 0, 0⟩])
        demoParse none 1).length ≤ 1
      ∧ (get_variation_candidates (some [⟨"e4", 3, 2, 1⟩]) demoParse
          (some [[mvB, mvC], [mvA]]) 2).length ≤ 2
      ∧ (get_variation_candidates (some [⟨"e4", 3, 2, 1⟩]) demoParse
          (some [[mvB, mvC], [mvA]]) 2).Nodup :=
  ⟨(select_candidates_length_and_nodup (some [⟨"e4", 1, 0, 0⟩, ⟨"e4", 0, 0, 0⟩])
      demoParse none 1).1,
   (select_candidates_length_and_nodup (some [⟨"e4", 3, 2, 1⟩]) demoParse
      (some [[mvB, mvC], [mvA]]) 2).1,
   (select_candidates_length_and_nodup (some [⟨"e4", 3, 2, 1⟩]) demoParse
      (some [[mvB, mvC], [mvA]]) 2).2 (by decide)⟩

/-- C7: the selector follows the spec's merge algorithm — database moves
sorted descending by `wins + draws + losses`, truncated to `desired_count`,
unparseable moves silently dropped; the engine consulted (in multi-line
mode) only when fewer than `desired_count` database moves result, each
line's first move appended only when not already present; and the merged
sequence truncated to `desired_count` in database-then-engine order. -/
theorem get_variation_candidates_eq_spec (dbData : Option (List LichessMove))
    (parse : String → Option Move) (engineLines : Option (List (List Move)))
    (desired_count : Nat) :
    get_variation_candidates dbData parse engineLines desired_count
      = select_candidates_spec dbData parse engineLines desired_count := by
  have hdb : dbCandidates dbData parse desired_count
      = (match dbData with
         | none => ([] : List Move)
         | some l =>
           ((sortDescByGames l).take desired_count).filterMap
             (fun e => if e.san = "" then none else parse e.san)) := by
    cases dbData with
    | none => rfl
    | some l =>
      simpa using
        foldl_parse_eq_filterMap parse ((sortDescByGames l).take desired_count) []
  simp only [get_variation_candidates, select_candidates_spec, hdb]
  cases engineLines with
  | none =>
    simp only [Option.getD_none, mergeNew]
  | some infos =>
    simp only [Option.getD_some]
    split_ifs with hlen
    · rw [foldl_engine_eq_mergeNew]
    · rfl

/-! ## Lemmas about the variation walker -/

theorem walkLoop_length_le (analyse : Board → Nat → Option EngineInfo)
    (legal : Board → List Move) (san : Board → Move → String)
    (T : Int) (t : Nat) :
    ∀ (fuel : Nat) (b : Board),
      (walkLoop analyse legal san T t fuel b).1.length ≤ fuel
  | 0, _ => Nat.le_refl 0
  | fuel + 1, b => by
    cases han : analyse b t with
    | none => simp [walkLoop, han]
    | some info =>
      cases hpv : info.pv with
      | nil => simp [walkLoop, han, hpv]
      | cons next_move pvRest =>
        simp only [walkLoop, han, hpv, List.length_cons]
        exact Nat.succ_le_succ (walkLoop_length_le analyse legal san T t fuel _)

theorem walkLoop_succ_none (analyse : Board → Nat → Option EngineInfo)
    (legal : Board → List Move) (san : Board → Move → String)
    (T : Int) (t : Nat) (fuel : Nat) (b : Board)
    (h : analyse b t = none) :
    walkLoop analyse legal san T t (fuel + 1) b = ([], b) := by
  simp only [walkLoop, h]

theorem walkLoop_succ_pv_nil (analyse : Board → Nat → Option EngineInfo)
    (legal : Board → List Move) (san : Board → Move → String)
    (T : Int) (t : Nat) (fuel : Nat) (b : Board) (info : EngineInfo)
    (h : analyse b t = some info) (hpv : info.pv = []) :
    walkLoop analyse legal san T t (fuel + 1) b = ([], b) := by
  simp only [walkLoop, h, hpv]

theorem walkLoop_succ_pv_cons (analyse : Board → Nat → Option EngineInfo)
    (legal : Board → List Move) (san : Board → Move → String)
    (T : Int) (t : Nat) (fuel : Nat) (b : Board) (info : EngineInfo)
    (next_move : Move) (pvRest : List Move)
    (h : analyse b t = some info) (hpv : info.pv = next_move :: pvRest) :
    walkLoop analyse legal san T t (fuel + 1) b
      = ((san b next_move,
          (evaluate_move_criticality analyse legal b next_move T t).1.1,
          (evaluate_move_criticality analyse legal b next_move T t).1.2)
            :: (walkLoop analyse legal san T t fuel (b ++ [next_move])).1,
         (walkLoop analyse legal san T t fuel (b ++ [next_move])).2) := by
  simp only [walkLoop, h, hpv, evaluate_move_criticality_snd]

theorem sanTrace_length (san : Board → Move → String) :
    ∀ (b : Board) (ms : List Move), (sanTrace san b ms).length = ms.length
  | _, [] => rfl
  | b, m :: ms => by
    simp only [sanTrace, List.length_cons]
    rw [sanTrace_length san (b ++ [m]) ms]

/-- The walker's loop pushes exactly the moves `walkMoves` lists, and the
SAN names it records are those moves rendered on the successive positions. -/
theorem walkLoop_spec (analyse : Board → Nat → Option EngineInfo)
    (legal : Board → List Move) (san : Board → Move → String)
    (T : Int) (t : Nat) :
    ∀ (fuel : Nat) (b : Board),
      (walkLoop analyse legal san T t fuel b).2
          = b ++ walkMoves analyse t fuel b
      ∧ (walkLoop analyse legal san T t fuel b).1.map (fun e => e.1)
          = sanTrace san b (walkMoves analyse t fuel b)
  | 0, b => by simp [walkLoop, walkMoves, sanTrace]
  | fuel + 1, b => by
    cases han : analyse b t with
    | none => simp [walkLoop, walkMoves, han, sanTrace]
    | some info =>
      cases hpv : info.pv with
      | nil => simp [walkLoop, walkMoves, han, hpv, sanTrace]
      | cons next_move pvRest =>
        have hsnd := evaluate_move_criticality_snd analyse legal b next_move T t
        have ih := walkLoop_spec analyse legal san T t fuel (b ++ [next_move])
        constructor
        · simp only [walkLoop, walkMoves, han, hpv, hsnd, sanTrace]
          rw [ih.1]
          simp
        · simp only [walkLoop, walkMoves, han, hpv, hsnd, sanTrace, List.map_cons]
          rw [ih.2]

/-! ## Claim theorems: the variation walker -/

/-- C8: the walk always terminates (it is a total function of its fuel) and,
for every `max_depth ≥ 1`, records at most `max_depth` entries. -/
theorem analyze_variation_depth_bound (analyse : Board → Nat → Option EngineInfo)
    (legal : Board → List Move) (san : Board → Move → String)
    (start_board : Board) (candidate_move : Move) (max_depth : Nat)
    (T : Int) (t : Nat) (h : 1 ≤ max_depth) :
    (analyze_variation analyse legal san start_board candidate_move max_depth
        T t).critical_info.length ≤ max_depth
      ∧ (analyze_variation analyse legal san start_board candidate_move max_depth
        T t).moves.length ≤ max_depth := by
  have hloop := walkLoop_length_le analyse legal san T t (max_depth - 1)
    ((evaluate_move_criticality analyse legal start_board candidate_move T t).2
      ++ [candidate_move])
  constructor
  · simp only [analyze_variation, List.length_cons]
    omega
  · simp only [analyze_variation, List.map_cons, List.length_map, List.length_cons]
    omega

/-- C8 witness: a depth-3 walk against the deterministic engine stub. -/
theorem analyze_variation_depth_bound_witness :
    1 ≤ 3 ∧
    ((analyze_variation demoAnalyse demoLegal (fun _ _ => "") [] mvA 3
        50 1).critical_info.length ≤ 3
      ∧ (analyze_variation demoAnalyse demoLegal (fun _ _ => "") [] mvA 3
        50 1).moves.length ≤ 3) :=
  ⟨by decide,
   analyze_variation_depth_bound demoAnalyse demoLegal (fun _ _ => "") [] mvA 3
     50 1 (by decide)⟩

/-- C5: when after the candidate the engine suggests one further move and
then either fails or returns an empty principal variation (so at ply 2,
while the depth bound still allows more plies), the walk stops without
raising and returns the valid 2-entry record of the plies successfully
recorded, with exactly those two moves applied to the start position. -/
theorem analyze_variation_stops_on_empty_pv
    (analyse : Board → Nat → Option EngineInfo) (legal : Board → List Move)
    (san : Board → Move → String) (start_board : Board)
    (candidate_move pvMove : Move) (T : Int) (t : Nat) (max_depth : Nat)
    (hdepth : 3 ≤ max_depth) (i1 : EngineInfo)
    (h1 : analyse (start_board ++ [candidate_move]) t = some i1)
    (h1pv : ∃ pvRest, i1.pv = pvMove :: pvRest)
    (h2 : ∀ i2, analyse ((start_board ++ [candidate_move]) ++ [pvMove]) t = some i2
      → i2.pv = []) :
    (analyze_variation analyse legal san start_board candidate_move max_depth
        T t).critical_info.length = 2
      ∧ (analyze_variation analyse legal san start_board candidate_move max_depth
        T t).moves.length = 2
      ∧ (analyze_variation analyse legal san start_board candidate_move max_depth
        T t).final_board = (start_board ++ [candidate_move]) ++ [pvMove] := by
  obtain ⟨pvRest, h1pv⟩ := h1pv
  obtain ⟨k, hk⟩ : ∃ k, max_depth - 1 = k + 2 := ⟨max_depth - 3, by omega⟩
  have hsnd0 := evaluate_move_criticality_snd analyse legal start_board
    candidate_move T t
  have hloop2 : walkLoop analyse legal san T t (k + 1)
      ((start_board ++ [candidate_move]) ++ [pvMove])
      = ([], (start_board ++ [candidate_move]) ++ [pvMove]) := by
    cases han : analyse ((start_board ++ [candidate_move]) ++ [pvMove]) t with
    | none => exact walkLoop_succ_none analyse legal san T t k _ han
    | some i2 => exact walkLoop_succ_pv_nil analyse legal san T t k _ i2 han (h2 i2 han)
  have hloop1 : walkLoop analyse legal san T t (k + 2)
      (start_board ++ [candidate_move])
      = ((san (start_board ++ [candidate_move]) pvMove,
          (evaluate_move_criticality analyse legal (start_board ++ [candidate_move])
            pvMove T t).1.1,
          (evaluate_move_criticality analyse legal (start_board ++ [candidate_move])
            pvMove T t).1.2)
            :: ([] : List (String × Bool × Int)),
         (start_board ++ [candidate_move]) ++ [pvMove]) := by
    rw [walkLoop_succ_pv_cons analyse legal san T t (k + 1)
      (start_board ++ [candidate_move]) i1 pvMove pvRest h1 h1pv, hloop2]
  simp only [analyze_variation, hsnd0, hk, hloop1]
  simp

/-- An engine stub that answers principal variation `[mvB]` with one move
pushed and an empty principal variation everywhere else. -/
def pvStub : Board → Nat → Option EngineInfo :=
  fun b _ => if b.length = 1 then some ⟨0, [mvB]⟩ else some ⟨0, []⟩

/-- C5 witness: with `pvStub` the depth-3 walk from the empty start returns
exactly a 2-entry record and the 2-move final position. -/
theorem analyze_variation_stops_on_empty_pv_witness :
    (analyze_variation pvStub demoLegal (fun _ _ => "") [] mvA 3
        50 1).critical_info.length = 2
      ∧ (analyze_variation pvStub demoLegal (fun _ _ => "") [] mvA 3
        50 1).moves.length = 2
      ∧ (analyze_variation pvStub demoLegal (fun _ _ => "") [] mvA 3
        50 1).final_board = (([] : Board) ++ [mvA]) ++ [mvB] :=
  analyze_variation_stops_on_empty_pv pvStub demoLegal (fun _ _ => "") [] mvA mvB
    50 1 3 (by decide) ⟨0, [mvB]⟩ (by decide) ⟨[], rfl⟩
    (fun i2 h => by
      have h2 : some (⟨0, []⟩ : EngineInfo) = some i2 := by
        simpa [pvStub] using h
      cases h2
      rfl)

/-- C10: the terminal position of a walk is the start position with exactly
the recorded moves applied in their recorded order — there is a move list
`ms`, one move per recorded entry, whose successive application produces the
final board, and whose per-position SAN renderings are the recorded names.
(The walk operates on a copy; `start_board` itself is immutable here.) -/
theorem analyze_variation_final_board_eq_applied
    (analyse : Board → Nat → Option EngineInfo) (legal : Board → List Move)
    (san : Board → Move → String) (start_board : Board)
    (candidate_move : Move) (max_depth : Nat) (T : Int) (t : Nat) :
    ∃ ms : List Move,
      (analyze_variation analyse legal san start_board candidate_move max_depth
          T t).final_board = start_board ++ ms
        ∧ (analyze_variation analyse legal san start_board candidate_move max_depth
          T t).moves = sanTrace san start_board ms
        ∧ ms.length = (analyze_variation analyse legal san start_board
          candidate_move max_depth T t).critical_info.length := by
  have hsnd := evaluate_move_criticality_snd analyse legal start_board
    candidate_move T t
  have hsp := walkLoop_spec analyse legal san T t (max_depth - 1)
    (start_board ++ [candidate_move])
  refine ⟨candidate_move :: walkMoves analyse t (max_depth - 1)
    (start_board ++ [candidate_move]), ?_, ?_, ?_⟩
  · simp only [analyze_variation, hsnd]
    rw [hsp.1]
    simp
  · simp only [analyze_variation, List.map_cons, hsnd, sanTrace]
    rw [hsp.2]
  · have hlen := congrArg List.length hsp.2
    rw [List.length_map, sanTrace_length] at hlen
    simp only [analyze_variation, List.length_cons, List.length_map, hsnd]
    omega
